import Mathlib

/-
Verification of the persistent immutable ordered set (package `container`,
type `ImmSet`) of this repository.  The repository excerpt contains the
test/benchmark file exercising `ImmSet` (`NewImmSet`, `NewImmSetFunc`,
`Len`, `Has`, `AsSlice`, `Equal`, `Insert`, `Delete`, `Union`,
`Difference`, and the bulk strategy variants `InsertNew`, `DeleteNew`,
`UnionNew`, `DifferenceNew`), while the implementation itself is not part
of the excerpt; the definitions below are therefore modelled from the
specification: a set value holds the comparator and its elements as a
duplicate-free sequence in strictly increasing comparator order.
-/

namespace ImmSetSpec

/-- Modelled from the spec: a correct caller-supplied comparator is a total
order producing a three-way result, where comparator-equality coincides
with element equality ("comparator-equal iff same element"). -/
structure LawfulCmp {T : Type} (cmp : T → T → Ordering) : Prop where
  eq_iff : ∀ a b, cmp a b = Ordering.eq ↔ a = b
  symm_swap : ∀ a b, cmp a b = (cmp b a).swap
  lt_trans : ∀ {a b c}, cmp a b = Ordering.lt → cmp b c = Ordering.lt → cmp a c = Ordering.lt

/-- Modelled from the spec: comparator-guided insertion into an ordered
duplicate-free sequence; an element already present is a no-op and the
untouched remainder of the sequence is shared. -/
def insertSorted {T : Type} (cmp : T → T → Ordering) (x : T) : List T → List T
  | [] => [x]
  | y :: ys =>
    match cmp x y with
    | Ordering.lt => x :: y :: ys
    | Ordering.eq => y :: ys
    | Ordering.gt => y :: insertSorted cmp x ys

/-- Modelled from the spec: comparator-guided removal of one element from an
ordered sequence; removing an absent element leaves the sequence as-is. -/
def removeSorted {T : Type} (cmp : T → T → Ordering) (x : T) : List T → List T
  | [] => []
  | y :: ys =>
    match cmp x y with
    | Ordering.lt => y :: ys
    | Ordering.eq => ys
    | Ordering.gt => y :: removeSorted cmp x ys

/-- Modelled from the spec: comparator-guided membership descent over the
ordered sequence, with early exit once elements exceed the probe. -/
def memSorted {T : Type} (cmp : T → T → Ordering) (x : T) : List T → Bool
  | [] => false
  | y :: ys =>
    match cmp x y with
    | Ordering.lt => false
    | Ordering.eq => true
    | Ordering.gt => memSorted cmp x ys

/-- Modelled from the spec: content comparison of two materialized ordered
sequences, element by element under the comparator. -/
def eqList {T : Type} (cmp : T → T → Ordering) : List T → List T → Bool
  | [], [] => true
  | a :: l1, b :: l2 => cmp a b == Ordering.eq && eqList cmp l1 l2
  | _, _ => false

/-- Modelled from the spec: order-preserving merge of two ordered sequences
(the bulk union strategy); on comparator-equal heads the receiver's element
is kept, so later duplicates are indistinguishable from earlier ones. -/
def mergeSorted {T : Type} (cmp : T → T → Ordering) : List T → List T → List T
  | [], r => r
  | l, [] => l
  | x :: l, y :: r =>
    match cmp x y with
    | Ordering.lt => x :: mergeSorted cmp l (y :: r)
    | Ordering.eq => x :: mergeSorted cmp l r
    | Ordering.gt => y :: mergeSorted cmp (x :: l) r
termination_by l r => l.length + r.length

/-- Modelled from the spec: order-exploiting difference of two ordered
sequences (the bulk difference strategy), keeping the elements of the first
sequence that are absent from the second. -/
def diffSorted {T : Type} (cmp : T → T → Ordering) : List T → List T → List T
  | [], _ => []
  | l, [] => l
  | x :: l, y :: r =>
    match cmp x y with
    | Ordering.lt => x :: diffSorted cmp l (y :: r)
    | Ordering.eq => diffSorted cmp l r
    | Ordering.gt => diffSorted cmp (x :: l) r
termination_by l r => l.length + r.length

/-- Modelled from the spec: a set value is an immutable handle holding the
materialized elements (in strictly increasing comparator order, the
representation invariant `WF` below) together with the comparator fixed at
construction time. -/
structure ImmSet (T : Type) where
  xs : List T
  cmp : T → T → Ordering

/-- Modelled from the spec: `NewImmSetFunc(cmp, items...)` builds a set from
an explicit comparator and an initial sequence, collapsing duplicates via
the general insert path. -/
def NewImmSetFunc {T : Type} (cmp : T → T → Ordering) (ys : List T) : ImmSet T :=
  ⟨ys.foldl (fun l x => insertSorted cmp x l) [], cmp⟩

/-- Modelled from the spec: `NewImmSet(items...)` is a thin adapter supplying
the element type's intrinsic total order as the comparator. -/
def NewImmSet {T : Type} [LinearOrder T] (ys : List T) : ImmSet T :=
  NewImmSetFunc compare ys

/-- Modelled from the spec: `Len()` returns the cached element count. -/
def ImmSet.Len {T : Type} (s : ImmSet T) : Nat := s.xs.length

/-- Modelled from the spec: `Has(x)` reports whether a comparator-equal
element exists, by comparator-guided descent. -/
def ImmSet.Has {T : Type} (s : ImmSet T) (x : T) : Bool := memSorted s.cmp x s.xs

/-- Modelled from the spec: `AsSlice()` is the full materialization of the
elements in strictly increasing comparator order. -/
def ImmSet.AsSlice {T : Type} (s : ImmSet T) : List T := s.xs

/-- Modelled from the spec: `Insert(xs...)` returns a new set containing all
prior elements plus the arguments; already-present elements are no-ops. -/
def ImmSet.Insert {T : Type} (s : ImmSet T) (ys : List T) : ImmSet T :=
  ⟨ys.foldl (fun l x => insertSorted s.cmp x l) s.xs, s.cmp⟩

/-- Modelled from the spec: `Delete(xs...)` returns a new set with each
argument removed if present; deleting an absent element is a no-op. -/
def ImmSet.Delete {T : Type} (s : ImmSet T) (ys : List T) : ImmSet T :=
  ⟨ys.foldl (fun l x => removeSorted s.cmp x l) s.xs, s.cmp⟩

/-- Modelled from the spec: `Union(other)` returns a set containing the
union of the elements (single-element strategy: reinsert the other set's
elements). -/
def ImmSet.Union {T : Type} (s t : ImmSet T) : ImmSet T := s.Insert t.xs

/-- Modelled from the spec: `Difference(other)` returns the set of elements
present in the receiver but absent from `other`. -/
def ImmSet.Difference {T : Type} (s t : ImmSet T) : ImmSet T :=
  ⟨s.xs.filter (fun x => !(memSorted s.cmp x t.xs)), s.cmp⟩

/-- Modelled from the spec: `Equal(other)` reports whether the two sets hold
exactly the same elements under the comparator. -/
def ImmSet.Equal {T : Type} (s t : ImmSet T) : Bool := eqList s.cmp s.xs t.xs

/-- Modelled from the spec: `InsertNew(xs...)`, the bulk strategy for
`Insert`: build an ordered sequence from the arguments and merge it with
the receiver's elements. -/
def ImmSet.InsertNew {T : Type} (s : ImmSet T) (ys : List T) : ImmSet T :=
  ⟨mergeSorted s.cmp s.xs (NewImmSetFunc s.cmp ys).xs, s.cmp⟩

/-- Modelled from the spec: `DeleteNew(xs...)`, the bulk strategy for
`Delete`: build an ordered sequence from the arguments and subtract it from
the receiver's elements in one ordered pass. -/
def ImmSet.DeleteNew {T : Type} (s : ImmSet T) (ys : List T) : ImmSet T :=
  ⟨diffSorted s.cmp s.xs (NewImmSetFunc s.cmp ys).xs, s.cmp⟩

/-- Modelled from the spec: `UnionNew(other)`, the bulk strategy for
`Union`: a divide-and-conquer style ordered merge of the two element
sequences. -/
def ImmSet.UnionNew {T : Type} (s t : ImmSet T) : ImmSet T :=
  ⟨mergeSorted s.cmp s.xs t.xs, s.cmp⟩

/-- Modelled from the spec: `DifferenceNew(other)`, the bulk strategy for
`Difference`: one ordered pass over both element sequences. -/
def ImmSet.DifferenceNew {T : Type} (s t : ImmSet T) : ImmSet T :=
  ⟨diffSorted s.cmp s.xs t.xs, s.cmp⟩

/-- The spec's ordering invariant on a materialized sequence: pairwise
strictly increasing under the comparator. -/
def sortedLt {T : Type} (cmp : T → T → Ordering) (l : List T) : Prop :=
  List.Pairwise (fun a b => cmp a b = Ordering.lt) l

/-- Representation invariant of a set value: its elements are in strictly
increasing comparator order (hence duplicate-free). -/
def ImmSet.WF {T : Type} (s : ImmSet T) : Prop := sortedLt s.cmp s.xs

/-- The set values reachable by the public API: built by a constructor under
a correct comparator and then transformed by Insert/Delete/Union/Difference,
where the two operands of a binary operation carry the same comparator. -/
inductive Built {T : Type} : ImmSet T → Prop where
  | new (cmp : T → T → Ordering) (hc : LawfulCmp cmp) (ys : List T) :
      Built (NewImmSetFunc cmp ys)
  | insert {s : ImmSet T} (ys : List T) : Built s → Built (s.Insert ys)
  | delete {s : ImmSet T} (ys : List T) : Built s → Built (s.Delete ys)
  | union {s t : ImmSet T} : Built s → Built t → t.cmp = s.cmp → Built (s.Union t)
  | difference {s t : ImmSet T} : Built s → Built t → t.cmp = s.cmp →
      Built (s.Difference t)

theorem LawfulCmp.eq_refl {T : Type} {cmp : T → T → Ordering} (hc : LawfulCmp cmp)
    (a : T) : cmp a a = Ordering.eq := (hc.eq_iff a a).mpr rfl

theorem LawfulCmp.ne_of_lt {T : Type} {cmp : T → T → Ordering} (hc : LawfulCmp cmp)
    {a b : T} (h : cmp a b = Ordering.lt) : a ≠ b := by
  intro he
  subst he
  rw [hc.eq_refl a] at h
  exact Ordering.noConfusion h

theorem LawfulCmp.gt_iff {T : Type} {cmp : T → T → Ordering} (hc : LawfulCmp cmp)
    (a b : T) : cmp a b = Ordering.gt ↔ cmp b a = Ordering.lt := by
  rw [hc.symm_swap a b]
  cases cmp b a <;> simp [Ordering.swap]

theorem LawfulCmp.ne_of_gt {T : Type} {cmp : T → T → Ordering} (hc : LawfulCmp cmp)
    {a b : T} (h : cmp a b = Ordering.gt) : a ≠ b := by
  intro he
  subst he
  rw [hc.eq_refl a] at h
  exact Ordering.noConfusion h

theorem LawfulCmp.lt_irrefl {T : Type} {cmp : T → T → Ordering} (hc : LawfulCmp cmp)
    (a : T) : cmp a a ≠ Ordering.lt := fun h => hc.ne_of_lt h rfl

/-- An element below the head of a strictly increasing sequence is not in it. -/
theorem not_mem_of_lt_head {T : Type} {cmp : T → T → Ordering} (hc : LawfulCmp cmp)
    {x y : T} {ys : List T} (h : cmp x y = Ordering.lt)
    (hs : sortedLt cmp (y :: ys)) : x ∉ y :: ys := by
  intro hmem
  rcases List.mem_cons.mp hmem with he | hin
  · exact hc.ne_of_lt h he
  · exact hc.lt_irrefl x (hc.lt_trans h ((List.pairwise_cons.mp hs).1 x hin))

theorem mem_insertSorted {T : Type} {cmp : T → T → Ordering} (hc : LawfulCmp cmp)
    (x a : T) (l : List T) : a ∈ insertSorted cmp x l ↔ a = x ∨ a ∈ l := by
  induction l with
  | nil => simp [insertSorted]
  | cons y ys ih =>
    cases h : cmp x y with
    | lt => simp [insertSorted, h]
    | eq =>
      have he : x = y := (hc.eq_iff x y).mp h
      subst he
      simp only [insertSorted, h, List.mem_cons]
      tauto
    | gt =>
      simp only [insertSorted, h, List.mem_cons, ih]
      tauto

theorem sorted_insertSorted {T : Type} {cmp : T → T → Ordering} (hc : LawfulCmp cmp)
    (x : T) {l : List T} (hs : sortedLt cmp l) : sortedLt cmp (insertSorted cmp x l) := by
  induction l with
  | nil => simp [insertSorted, sortedLt]
  | cons y ys ih =>
    rcases List.pairwise_cons.mp hs with ⟨hy, hys⟩
    cases h : cmp x y with
    | lt =>
      simp only [insertSorted, h]
      refine List.pairwise_cons.mpr ⟨?_, hs⟩
      intro b hb
      rcases List.mem_cons.mp hb with he | hin
      · exact he ▸ h
      · exact hc.lt_trans h (hy b hin)
    | eq =>
      simp only [insertSorted, h]
      exact hs
    | gt =>
      simp only [insertSorted, h]
      refine List.pairwise_cons.mpr ⟨?_, ih hys⟩
      intro b hb
      rcases (mem_insertSorted hc x b ys).mp hb with he | hin
      · exact he ▸ (hc.gt_iff x y).mp h
      · exact hy b hin

theorem insertSorted_of_mem {T : Type} {cmp : T → T → Ordering} (hc : LawfulCmp cmp)
    {x : T} {l : List T} (hs : sortedLt cmp l) (hx : x ∈ l) :
    insertSorted cmp x l = l := by
  induction l with
  | nil => cases hx
  | cons y ys ih =>
    rcases List.pairwise_cons.mp hs with ⟨hy, hys⟩
    cases h : cmp x y with
    | lt => exact absurd hx (not_mem_of_lt_head hc h hs)
    | eq => simp [insertSorted, h]
    | gt =>
      have hxy : x ≠ y := hc.ne_of_gt h
      have hin : x ∈ ys := by
        rcases List.mem_cons.mp hx with he | hin
        · exact absurd he hxy
        · exact hin
      simp [insertSorted, h, ih hys hin]

theorem length_insertSorted_of_not_mem {T : Type} {cmp : T → T → Ordering}
    (hc : LawfulCmp cmp) {x : T} {l : List T} (hx : x ∉ l) :
    (insertSorted cmp x l).length = l.length + 1 := by
  induction l with
  | nil => simp [insertSorted]
  | cons y ys ih =>
    cases h : cmp x y with
    | lt => simp [insertSorted, h]
    | eq =>
      have he : x = y := (hc.eq_iff x y).mp h
      exact absurd (he ▸ List.mem_cons_self x ys) hx
    | gt =>
      have hin : x ∉ ys := fun hmem => hx (List.mem_cons_of_mem y hmem)
      simp [insertSorted, h, ih hin]

theorem removeSorted_sublist {T : Type} (cmp : T → T → Ordering) (x : T)
    (l : List T) : List.Sublist (removeSorted cmp x l) l := by
  induction l with
  | nil => simp [removeSorted]
  | cons y ys ih =>
    cases h : cmp x y with
    | lt => simp [removeSorted, h]
    | eq =>
      simp only [removeSorted, h]
      exact (List.sublist_cons_self y ys)
    | gt =>
      simp only [removeSorted, h]
      exact List.Sublist.cons₂ y ih

theorem sorted_removeSorted {T : Type} {cmp : T → T → Ordering} (x : T)
    {l : List T} (hs : sortedLt cmp l) : sortedLt cmp (removeSorted cmp x l) :=
  List.Pairwise.sublist (removeSorted_sublist cmp x l) hs

theorem mem_removeSorted {T : Type} {cmp : T → T → Ordering} (hc : LawfulCmp cmp)
    {x : T} {l : List T} (hs : sortedLt cmp l) (a : T) :
    a ∈ removeSorted cmp x l ↔ a ∈ l ∧ a ≠ x := by
  induction l with
  | nil => simp [removeSorted]
  | cons y ys ih =>
    rcases List.pairwise_cons.mp hs with ⟨hy, hys⟩
    cases h : cmp x y with
    | lt =>
      have hx : x ∉ y :: ys := not_mem_of_lt_head hc h hs
      simp only [removeSorted, h]
      constructor
      · intro ha
        exact ⟨ha, fun he => hx (he ▸ ha)⟩
      · exact fun ha => ha.1
    | eq =>
      have he : x = y := (hc.eq_iff x y).mp h
      subst he
      have hx : x ∉ ys := fun hin => hc.lt_irrefl x (hy x hin)
      simp only [removeSorted, h, List.mem_cons]
      constructor
      · intro ha
        exact ⟨Or.inr ha, fun he => hx (he ▸ ha)⟩
      · rintro ⟨ha | ha, hne⟩
        · exact absurd ha hne
        · exact ha
    | gt =>
      have hxy : x ≠ y := hc.ne_of_gt h
      simp only [removeSorted, h, List.mem_cons, ih hys]
      constructor
      · rintro (he | ⟨ha, hne⟩)
        · exact ⟨Or.inl he, fun hax => hxy (hax.symm.trans he)⟩
        · exact ⟨Or.inr ha, hne⟩
      · rintro ⟨he | ha, hne⟩
        · exact Or.inl he
        · exact Or.inr ⟨ha, hne⟩

theorem removeSorted_of_not_mem {T : Type} {cmp : T → T → Ordering}
    (hc : LawfulCmp cmp) {x : T} {l : List T} (hx : x ∉ l) :
    removeSorted cmp x l = l := by
  induction l with
  | nil => simp [removeSorted]
  | cons y ys ih =>
    cases h : cmp x y with
    | lt => simp [removeSorted, h]
    | eq =>
      have he : x = y := (hc.eq_iff x y).mp h
      exact absurd (he ▸ List.mem_cons_self x ys) hx
    | gt =>
      have hin : x ∉ ys := fun hmem => hx (List.mem_cons_of_mem y hmem)
      simp [removeSorted, h, ih hin]

theorem memSorted_iff {T : Type} {cmp : T → T → Ordering} (hc : LawfulCmp cmp)
    {x : T} {l : List T} (hs : sortedLt cmp l) :
    memSorted cmp x l = true ↔ x ∈ l := by
  induction l with
  | nil => simp [memSorted]
  | cons y ys ih =>
    rcases List.pairwise_cons.mp hs with ⟨hy, hys⟩
    cases h : cmp x y with
    | lt =>
      simp only [memSorted, h]
      exact ⟨fun hfalse => Bool.noConfusion hfalse,
        fun hmem => absurd hmem (not_mem_of_lt_head hc h hs)⟩
    | eq =>
      have he : x = y := (hc.eq_iff x y).mp h
      simp only [memSorted, h]
      simp [he]
    | gt =>
      have hxy : x ≠ y := hc.ne_of_gt h
      simp only [memSorted, h, ih hys, List.mem_cons]
      exact ⟨fun hmem => Or.inr hmem, fun hmem => hmem.resolve_left hxy⟩

theorem ordering_beq_eq_iff (o : Ordering) :
    (o == Ordering.eq) = true ↔ o = Ordering.eq := by
  cases o <;> decide

theorem eqList_refl {T : Type} {cmp : T → T → Ordering} (hc : LawfulCmp cmp)
    (l : List T) : eqList cmp l l = true := by
  induction l with
  | nil => simp [eqList]
  | cons a l ih => simp [eqList, ordering_beq_eq_iff, hc.eq_refl a, ih]

theorem eqList_iff {T : Type} {cmp : T → T → Ordering} (hc : LawfulCmp cmp)
    (l1 l2 : List T) : eqList cmp l1 l2 = true ↔ l1 = l2 := by
  induction l1 generalizing l2 with
  | nil =>
    cases l2 with
    | nil => simp [eqList]
    | cons b l2 => simp [eqList]
  | cons a l1 ih =>
    cases l2 with
    | nil => simp [eqList]
    | cons b l2 =>
      simp only [eqList, Bool.and_eq_true, ordering_beq_eq_iff, hc.eq_iff, ih,
        List.cons.injEq]

theorem mem_foldl_insert {T : Type} {cmp : T → T → Ordering} (hc : LawfulCmp cmp)
    (a : T) (ys l0 : List T) :
    a ∈ ys.foldl (fun l x => insertSorted cmp x l) l0 ↔ a ∈ l0 ∨ a ∈ ys := by
  induction ys generalizing l0 with
  | nil => simp
  | cons y ys ih =>
    simp only [List.foldl_cons, ih, mem_insertSorted hc, List.mem_cons]
    tauto

theorem sorted_foldl_insert {T : Type} {cmp : T → T → Ordering} (hc : LawfulCmp cmp)
    (ys : List T) {l0 : List T} (hs : sortedLt cmp l0) :
    sortedLt cmp (ys.foldl (fun l x => insertSorted cmp x l) l0) := by
  induction ys generalizing l0 with
  | nil => exact hs
  | cons y ys ih => exact ih (sorted_insertSorted hc y hs)

theorem mem_foldl_remove {T : Type} {cmp : T → T → Ordering} (hc : LawfulCmp cmp)
    (a : T) (ys : List T) {l0 : List T} (hs : sortedLt cmp l0) :
    a ∈ ys.foldl (fun l x => removeSorted cmp x l) l0 ↔ a ∈ l0 ∧ a ∉ ys := by
  induction ys generalizing l0 with
  | nil => simp
  | cons y ys ih =>
    simp only [List.foldl_cons, ih (sorted_removeSorted y hs),
      mem_removeSorted hc hs, List.mem_cons]
    tauto

theorem sorted_foldl_remove {T : Type} {cmp : T → T → Ordering}
    (ys : List T) {l0 : List T} (hs : sortedLt cmp l0) :
    sortedLt cmp (ys.foldl (fun l x => removeSorted cmp x l) l0) := by
  induction ys generalizing l0 with
  | nil => exact hs
  | cons y ys ih => exact ih (sorted_removeSorted y hs)

theorem foldl_remove_of_not_mem {T : Type} {cmp : T → T → Ordering}
    (hc : LawfulCmp cmp) (ys : List T) {l0 : List T}
    (h : ∀ y ∈ ys, y ∉ l0) : ys.foldl (fun l x => removeSorted cmp x l) l0 = l0 := by
  induction ys with
  | nil => rfl
  | cons y ys ih =>
    simp only [List.foldl_cons,
      removeSorted_of_not_mem hc (h y (List.mem_cons_self y ys))]
    exact ih fun z hz => h z (List.mem_cons_of_mem y hz)

theorem mem_mergeSorted {T : Type} {cmp : T → T → Ordering} (hc : LawfulCmp cmp)
    (a : T) : ∀ l r : List T, a ∈ mergeSorted cmp l r ↔ a ∈ l ∨ a ∈ r := by
  intro l
  induction l with
  | nil => intro r; simp [mergeSorted]
  | cons x l ihl =>
    intro r
    induction r with
    | nil => simp [mergeSorted]
    | cons y r ihr =>
      cases h : cmp x y with
      | lt =>
        simp only [mergeSorted, h, List.mem_cons, ihl (y :: r), List.mem_cons]
        tauto
      | eq =>
        have he : x = y := (hc.eq_iff x y).mp h
        subst he
        simp only [mergeSorted, h, List.mem_cons, ihl r]
        tauto
      | gt =>
        simp only [mergeSorted, h, List.mem_cons] at ihr ⊢
        rw [ihr]
        tauto

theorem sorted_mergeSorted {T : Type} {cmp : T → T → Ordering} (hc : LawfulCmp cmp) :
    ∀ {l r : List T}, sortedLt cmp l → sortedLt cmp r →
      sortedLt cmp (mergeSorted cmp l r) := by
  intro l
  induction l with
  | nil => intro r _ hr; simpa [mergeSorted] using hr
  | cons x l ihl =>
    intro r hl hr
    induction r with
    | nil => simpa [mergeSorted] using hl
    | cons y r ihr =>
      rcases List.pairwise_cons.mp hl with ⟨hx, hl'⟩
      rcases List.pairwise_cons.mp hr with ⟨hy, hr'⟩
      cases h : cmp x y with
      | lt =>
        simp only [mergeSorted, h]
        refine List.pairwise_cons.mpr ⟨?_, ihl hl' hr⟩
        intro b hb
        rcases (mem_mergeSorted hc b l (y :: r)).mp hb with hbl | hby
        · exact hx b hbl
        · rcases List.mem_cons.mp hby with he | hbr
          · exact he ▸ h
          · exact hc.lt_trans h (hy b hbr)
      | eq =>
        have he : x = y := (hc.eq_iff x y).mp h
        subst he
        simp only [mergeSorted, h]
        refine List.pairwise_cons.mpr ⟨?_, ihl hl' hr'⟩
        intro b hb
        rcases (mem_mergeSorted hc b l r).mp hb with hbl | hbr
        · exact hx b hbl
        · exact hy b hbr
      | gt =>
        have hyx : cmp y x = Ordering.lt := (hc.gt_iff x y).mp h
        simp only [mergeSorted, h]
        refine List.pairwise_cons.mpr ⟨?_, ihr hr'⟩
        intro b hb
        rcases (mem_mergeSorted hc b (x :: l) r).mp hb with hbl | hbr
        · rcases List.mem_cons.mp hbl with he | hbl'
          · exact he ▸ hyx
          · exact hc.lt_trans hyx (hx b hbl')
        · exact hy b hbr

theorem diffSorted_sublist {T : Type} (cmp : T → T → Ordering) :
    ∀ l r : List T, List.Sublist (diffSorted cmp l r) l := by
  intro l
  induction l with
  | nil => intro r; simp [diffSorted]
  | cons x l ihl =>
    intro r
    induction r with
    | nil => simp [diffSorted]
    | cons y r ihr =>
      cases h : cmp x y with
      | lt =>
        simp only [diffSorted, h]
        exact List.Sublist.cons₂ x (ihl (y :: r))
      | eq =>
        simp only [diffSorted, h]
        exact List.Sublist.cons x (ihl r)
      | gt =>
        simp only [diffSorted, h]
        exact ihr

theorem sorted_diffSorted {T : Type} {cmp : T → T → Ordering} {l : List T}
    (r : List T) (hs : sortedLt cmp l) : sortedLt cmp (diffSorted cmp l r) :=
  List.Pairwise.sublist (diffSorted_sublist cmp l r) hs

theorem mem_diffSorted {T : Type} {cmp : T → T → Ordering} (hc : LawfulCmp cmp)
    (a : T) : ∀ {l r : List T}, sortedLt cmp l → sortedLt cmp r →
      (a ∈ diffSorted cmp l r ↔ a ∈ l ∧ a ∉ r) := by
  intro l
  induction l with
  | nil => intro r _ _; simp [diffSorted]
  | cons x l ihl =>
    intro r hl hr
    induction r with
    | nil => simp [diffSorted]
    | cons y r ihr =>
      rcases List.pairwise_cons.mp hl with ⟨hx, hl'⟩
      rcases List.pairwise_cons.mp hr with ⟨hy, hr'⟩
      cases h : cmp x y with
      | lt =>
        have hxr : x ∉ y :: r := not_mem_of_lt_head hc h hr
        simp only [List.mem_cons] at hxr
        simp only [diffSorted, h, List.mem_cons, ihl hl' hr]
        constructor
        · rintro (he | ⟨hal, har⟩)
          · subst he
            exact ⟨Or.inl rfl, hxr⟩
          · exact ⟨Or.inr hal, har⟩
        · rintro ⟨he | hal, har⟩
          · exact Or.inl he
          · exact Or.inr ⟨hal, har⟩
      | eq =>
        have he : x = y := (hc.eq_iff x y).mp h
        subst he
        have hxl : x ∉ l := fun hin => hc.lt_irrefl x (hx x hin)
        simp only [diffSorted, h, ihl hl' hr', List.mem_cons]
        constructor
        · rintro ⟨hal, har⟩
          refine ⟨Or.inr hal, ?_⟩
          rintro (he' | har')
          · exact hxl (he' ▸ hal)
          · exact har har'
        · rintro ⟨he' | hal, har⟩
          · exact absurd (Or.inl he') har
          · exact ⟨hal, fun har' => har (Or.inr har')⟩
      | gt =>
        have hyx : cmp y x = Ordering.lt := (hc.gt_iff x y).mp h
        have hyl : y ∉ x :: l := not_mem_of_lt_head hc hyx hl
        simp only [List.mem_cons] at hyl
        simp only [diffSorted, h, ihr hr', List.mem_cons]
        constructor
        · rintro ⟨hal, har⟩
          refine ⟨hal, ?_⟩
          rintro (he' | har')
          · subst he'
            exact hyl hal
          · exact har har'
        · rintro ⟨hal, har⟩
          exact ⟨hal, fun har' => har (Or.inr har')⟩

/-- Two strictly increasing sequences with the same members are identical. -/
theorem sorted_ext {T : Type} {cmp : T → T → Ordering} (hc : LawfulCmp cmp) :
    ∀ {l1 l2 : List T}, sortedLt cmp l1 → sortedLt cmp l2 →
      (∀ a, a ∈ l1 ↔ a ∈ l2) → l1 = l2 := by
  intro l1
  induction l1 with
  | nil =>
    intro l2 _ _ hmem
    cases l2 with
    | nil => rfl
    | cons b l2 => exact absurd ((hmem b).mpr (List.mem_cons_self b l2)) (List.not_mem_nil b)
  | cons x l1 ih =>
    intro l2 h1 h2 hmem
    cases l2 with
    | nil => exact absurd ((hmem x).mp (List.mem_cons_self x l1)) (List.not_mem_nil x)
    | cons y l2 =>
      rcases List.pairwise_cons.mp h1 with ⟨hx, h1'⟩
      rcases List.pairwise_cons.mp h2 with ⟨hy, h2'⟩
      have hxy : x = y := by
        rcases List.mem_cons.mp ((hmem x).mp (List.mem_cons_self x l1)) with he | hin
        · exact he
        · rcases List.mem_cons.mp ((hmem y).mpr (List.mem_cons_self y l2)) with he' | hin'
          · exact he'.symm
          · exact absurd (hc.lt_trans (hx y hin') (hy x hin)) (hc.lt_irrefl x)
      subst hxy
      have htail : ∀ a, a ∈ l1 ↔ a ∈ l2 := by
        intro a
        constructor
        · intro ha
          rcases List.mem_cons.mp ((hmem a).mp (List.mem_cons_of_mem x ha)) with he | hin
          · exact absurd (hx a ha) (he ▸ hc.lt_irrefl x)
          · exact hin
        · intro ha
          rcases List.mem_cons.mp ((hmem a).mpr (List.mem_cons_of_mem x ha)) with he | hin
          · exact absurd (hy a ha) (he ▸ hc.lt_irrefl x)
          · exact hin
      rw [ih h1' h2' htail]

theorem nodup_of_sorted {T : Type} {cmp : T → T → Ordering} (hc : LawfulCmp cmp)
    {l : List T} (hs : sortedLt cmp l) : l.Nodup :=
  List.Pairwise.imp (fun h => hc.ne_of_lt h) hs

/-- The intrinsic comparator of a linearly ordered element type is a correct
comparator in the sense of the spec. -/
theorem lawful_compare {T : Type} [LinearOrder T] :
    LawfulCmp (fun a b : T => compare a b) := by
  refine ⟨?_, ?_, ?_⟩
  · intro a b
    exact compare_eq_iff_eq
  · intro a b
    rcases lt_trichotomy a b with h | h | h
    · rw [compare_lt_iff_lt.mpr h, compare_gt_iff_gt.mpr h]
      rfl
    · rw [compare_eq_iff_eq.mpr h, compare_eq_iff_eq.mpr h.symm]
      rfl
    · rw [compare_gt_iff_gt.mpr h, compare_lt_iff_lt.mpr h]
      rfl
  · intro a b c hab hbc
    exact compare_lt_iff_lt.mpr (lt_trans (compare_lt_iff_lt.mp hab) (compare_lt_iff_lt.mp hbc))

/-- Every reachable set value carries a correct comparator and satisfies the
ordering representation invariant. -/
theorem built_lawful_wf {T : Type} {s : ImmSet T} (hb : Built s) :
    LawfulCmp s.cmp ∧ s.WF := by
  induction hb with
  | new cmp hc ys => exact ⟨hc, sorted_foldl_insert hc ys List.Pairwise.nil⟩
  | insert ys _ ih => exact ⟨ih.1, sorted_foldl_insert ih.1 ys ih.2⟩
  | delete ys _ ih => exact ⟨ih.1, sorted_foldl_remove ys ih.2⟩
  | union _ _ _ ihs _ => exact ⟨ihs.1, sorted_foldl_insert ihs.1 _ ihs.2⟩
  | difference _ _ _ ihs _ => exact ⟨ihs.1, List.Pairwise.filter _ ihs.2⟩

theorem ImmSet.eq_of_parts {T : Type} {s t : ImmSet T} (hx : s.xs = t.xs)
    (hcm : s.cmp = t.cmp) : s = t := by
  cases s
  cases t
  cases hx
  cases hcm
  rfl

/-- Claim C1: mutating operations are non-destructive: after any of
`Insert`, `Delete`, `Union`, `Difference` produces a derived set, the
original set value still reports exactly the `Len` and `AsSlice` it
reported before the call, and each derived set carries the same
comparator. -/
theorem mutating_ops_nondestructive {T : Type} (s t : ImmSet T) (ys : List T)
    (lenBefore : Nat) (sliceBefore : List T)
    (hlen : s.Len = lenBefore) (hslice : s.AsSlice = sliceBefore) :
    ∀ s2 ∈ [s.Insert ys, s.Delete ys, s.Union t, s.Difference t],
      s.Len = lenBefore ∧ s.AsSlice = sliceBefore ∧ s2.cmp = s.cmp := by
  intro s2 hs2
  simp only [List.mem_cons, List.not_mem_nil, or_false] at hs2
  rcases hs2 with h | h | h | h <;> subst h <;> exact ⟨hlen, hslice, rfl⟩

theorem mutating_ops_nondestructive_witness :
    (ImmSet.mk ([1, 2, 3] : List Int) compare).Len = 3 ∧
      (ImmSet.mk ([1, 2, 3] : List Int) compare).AsSlice = [1, 2, 3] ∧
      ((ImmSet.mk ([1, 2, 3] : List Int) compare).Insert [4]).cmp =
        (ImmSet.mk ([1, 2, 3] : List Int) compare).cmp :=
  mutating_ops_nondestructive (ImmSet.mk [1, 2, 3] compare) (ImmSet.mk [7] compare)
    [4] 3 [1, 2, 3] rfl rfl ((ImmSet.mk [1, 2, 3] compare).Insert [4])
    (List.mem_cons_self _ _)

/-- Claim C2: for every set obtained by any sequence of constructor,
`Insert`, `Delete`, `Union` and `Difference` operations, `AsSlice` returns
the elements in strictly increasing comparator order with no duplicates. -/
theorem asSlice_sorted_nodup {T : Type} {s : ImmSet T} (hb : Built s) :
    List.Chain' (fun a b => s.cmp a b = Ordering.lt) s.AsSlice ∧ s.AsSlice.Nodup := by
  rcases built_lawful_wf hb with ⟨hc, hwf⟩
  exact ⟨List.Pairwise.chain' hwf, nodup_of_sorted hc hwf⟩

theorem asSlice_sorted_nodup_witness :
    List.Chain'
      (fun a b =>
        (((NewImmSetFunc (compare : Int → Int → Ordering) [3, 1, 2]).Insert
              [5, 1]).Delete [2]).cmp a b = Ordering.lt)
      (((NewImmSetFunc (compare : Int → Int → Ordering) [3, 1, 2]).Insert
            [5, 1]).Delete [2]).AsSlice ∧
      (((NewImmSetFunc (compare : Int → Int → Ordering) [3, 1, 2]).Insert
            [5, 1]).Delete [2]).AsSlice.Nodup :=
  asSlice_sorted_nodup
    (Built.delete [2] (Built.insert [5, 1] (Built.new compare lawful_compare [3, 1, 2])))

/-- Claim C3: the two implementation strategies for each mutating operation
are observably indistinguishable: on well-formed inputs sharing one correct
comparator, `Insert` and `InsertNew`, `Delete` and `DeleteNew`, `Union` and
`UnionNew`, `Difference` and `DifferenceNew` produce equal set values, hence
identical `Len`, `Has`, `AsSlice` and `Equal` behavior. -/
theorem strategies_indistinguishable {T : Type} (s t : ImmSet T) (ys : List T)
    (hc : LawfulCmp s.cmp) (hs : s.WF) (ht : t.WF) (hcmp : t.cmp = s.cmp) :
    s.Insert ys = s.InsertNew ys ∧ s.Delete ys = s.DeleteNew ys ∧
      s.Union t = s.UnionNew t ∧ s.Difference t = s.DifferenceNew t := by
  have hys : sortedLt s.cmp (NewImmSetFunc s.cmp ys).xs :=
    sorted_foldl_insert hc ys List.Pairwise.nil
  have ht' : sortedLt s.cmp t.xs := hcmp ▸ ht
  refine ⟨?_, ?_, ?_, ?_⟩
  · refine ImmSet.eq_of_parts ?_ rfl
    apply sorted_ext hc (sorted_foldl_insert hc ys hs) (sorted_mergeSorted hc hs hys)
    intro a
    show a ∈ ys.foldl (fun l x => insertSorted s.cmp x l) s.xs ↔
      a ∈ mergeSorted s.cmp s.xs (NewImmSetFunc s.cmp ys).xs
    rw [mem_foldl_insert hc, mem_mergeSorted hc]
    show a ∈ s.xs ∨ a ∈ ys ↔
      a ∈ s.xs ∨ a ∈ ys.foldl (fun l x => insertSorted s.cmp x l) []
    rw [mem_foldl_insert hc]
    simp
  · refine ImmSet.eq_of_parts ?_ rfl
    apply sorted_ext hc (sorted_foldl_remove ys hs) (sorted_diffSorted _ hs)
    intro a
    show a ∈ ys.foldl (fun l x => removeSorted s.cmp x l) s.xs ↔
      a ∈ diffSorted s.cmp s.xs (NewImmSetFunc s.cmp ys).xs
    rw [mem_foldl_remove hc a ys hs, mem_diffSorted hc a hs hys]
    show a ∈ s.xs ∧ a ∉ ys ↔
      a ∈ s.xs ∧ ¬a ∈ ys.foldl (fun l x => insertSorted s.cmp x l) []
    rw [mem_foldl_insert hc]
    simp
  · refine ImmSet.eq_of_parts ?_ rfl
    apply sorted_ext hc (sorted_foldl_insert hc t.xs hs) (sorted_mergeSorted hc hs ht')
    intro a
    show a ∈ t.xs.foldl (fun l x => insertSorted s.cmp x l) s.xs ↔
      a ∈ mergeSorted s.cmp s.xs t.xs
    rw [mem_foldl_insert hc, mem_mergeSorted hc]
  · refine ImmSet.eq_of_parts ?_ rfl
    apply sorted_ext hc (List.Pairwise.filter _ hs) (sorted_diffSorted _ hs)
    intro a
    show a ∈ s.xs.filter (fun x => !(memSorted s.cmp x t.xs)) ↔
      a ∈ diffSorted s.cmp s.xs t.xs
    rw [List.mem_filter, mem_diffSorted hc a hs ht']
    constructor
    · rintro ⟨hal, hneg⟩
      rw [Bool.not_eq_true'] at hneg
      refine ⟨hal, fun hmem => ?_⟩
      rw [(memSorted_iff hc ht').mpr hmem] at hneg
      exact Bool.noConfusion hneg
    · rintro ⟨hal, hneg⟩
      refine ⟨hal, ?_⟩
      rw [Bool.not_eq_true']
      cases hms : memSorted s.cmp a t.xs with
      | false => rfl
      | true => exact absurd ((memSorted_iff hc ht').mp hms) hneg

theorem strategies_indistinguishable_witness :
    (NewImmSetFunc (compare : Int → Int → Ordering) [1, 2, 3]).Insert [2, 4] =
        (NewImmSetFunc (compare : Int → Int → Ordering) [1, 2, 3]).InsertNew [2, 4] ∧
      (NewImmSetFunc (compare : Int → Int → Ordering) [1, 2, 3]).Delete [2, 4] =
        (NewImmSetFunc (compare : Int → Int → Ordering) [1, 2, 3]).DeleteNew [2, 4] ∧
      (NewImmSetFunc (compare : Int → Int → Ordering) [1, 2, 3]).Union
          (NewImmSetFunc (compare : Int → Int → Ordering) [3, 4, 5]) =
        (NewImmSetFunc (compare : Int → Int → Ordering) [1, 2, 3]).UnionNew
          (NewImmSetFunc (compare : Int → Int → Ordering) [3, 4, 5]) ∧
      (NewImmSetFunc (compare : Int → Int → Ordering) [1, 2, 3]).Difference
          (NewImmSetFunc (compare : Int → Int → Ordering) [3, 4, 5]) =
        (NewImmSetFunc (compare : Int → Int → Ordering) [1, 2, 3]).DifferenceNew
          (NewImmSetFunc (compare : Int → Int → Ordering) [3, 4, 5]) :=
  strategies_indistinguishable (NewImmSetFunc compare [1, 2, 3])
    (NewImmSetFunc compare [3, 4, 5]) [2, 4] lawful_compare
    (sorted_foldl_insert lawful_compare [1, 2, 3] List.Pairwise.nil)
    (sorted_foldl_insert lawful_compare [3, 4, 5] List.Pairwise.nil) rfl

/-- Claim C4: Insert is idempotent: inserting `x` twice yields a set `Equal`
to inserting it once, and the resulting `Len` is unchanged when `Has x`
held and grows by one otherwise. -/
theorem insert_idempotent {T : Type} (s : ImmSet T) (x : T)
    (hc : LawfulCmp s.cmp) (hs : s.WF) :
    ((s.Insert [x]).Insert [x]).Equal (s.Insert [x]) = true ∧
      (s.Has x = true → (s.Insert [x]).Len = s.Len) ∧
      (s.Has x = false → (s.Insert [x]).Len = s.Len + 1) := by
  refine ⟨?_, ?_, ?_⟩
  · have hmem : x ∈ insertSorted s.cmp x s.xs :=
      (mem_insertSorted hc x x s.xs).mpr (Or.inl rfl)
    have hsorted : sortedLt s.cmp (insertSorted s.cmp x s.xs) :=
      sorted_insertSorted hc x hs
    show eqList s.cmp (insertSorted s.cmp x (insertSorted s.cmp x s.xs))
      (insertSorted s.cmp x s.xs) = true
    rw [insertSorted_of_mem hc hsorted hmem]
    exact eqList_refl hc _
  · intro hhas
    have hx : x ∈ s.xs := (memSorted_iff hc hs).mp hhas
    show (insertSorted s.cmp x s.xs).length = s.xs.length
    rw [insertSorted_of_mem hc hs hx]
  · intro hhas
    have hx : x ∉ s.xs := by
      intro hmem
      have hh : memSorted s.cmp x s.xs = false := hhas
      rw [(memSorted_iff hc hs).mpr hmem] at hh
      exact Bool.noConfusion hh
    show (insertSorted s.cmp x s.xs).length = s.xs.length + 1
    exact length_insertSorted_of_not_mem hc hx

theorem insert_idempotent_witness :
    (((NewImmSetFunc (compare : Int → Int → Ordering) [1, 2]).Insert [2]).Insert
          [2]).Equal ((NewImmSetFunc (compare : Int → Int → Ordering) [1, 2]).Insert [2]) =
        true ∧
      ((NewImmSetFunc (compare : Int → Int → Ordering) [1, 2]).Has 2 = true →
        ((NewImmSetFunc (compare : Int → Int → Ordering) [1, 2]).Insert [2]).Len =
          (NewImmSetFunc (compare : Int → Int → Ordering) [1, 2]).Len) ∧
      ((NewImmSetFunc (compare : Int → Int → Ordering) [1, 2]).Has 2 = false →
        ((NewImmSetFunc (compare : Int → Int → Ordering) [1, 2]).Insert [2]).Len =
          (NewImmSetFunc (compare : Int → Int → Ordering) [1, 2]).Len + 1) :=
  insert_idempotent (NewImmSetFunc compare [1, 2]) 2 lawful_compare
    (sorted_foldl_insert lawful_compare [1, 2] List.Pairwise.nil)

/-- Claim C5: Delete is idempotent and deleting absent elements is a no-op:
deleting `x` twice yields a set `Equal` to deleting it once, and deleting
only absent elements leaves `Len` unchanged and yields a set `Equal` to the
receiver. -/
theorem delete_idempotent {T : Type} (s : ImmSet T) (x : T) (ys : List T)
    (hc : LawfulCmp s.cmp) (hs : s.WF) :
    ((s.Delete [x]).Delete [x]).Equal (s.Delete [x]) = true ∧
      ((∀ y ∈ ys, s.Has y = false) →
        (s.Delete ys).Len = s.Len ∧ (s.Delete ys).Equal s = true) := by
  constructor
  · have hnot : x ∉ removeSorted s.cmp x s.xs := by
      intro hmem
      exact ((mem_removeSorted hc hs x).mp hmem).2 rfl
    show eqList s.cmp (removeSorted s.cmp x (removeSorted s.cmp x s.xs))
      (removeSorted s.cmp x s.xs) = true
    rw [removeSorted_of_not_mem hc hnot]
    exact eqList_refl hc _
  · intro habsent
    have hnone : ∀ y ∈ ys, y ∉ s.xs := by
      intro y hy hmem
      have hh : memSorted s.cmp y s.xs = false := habsent y hy
      rw [(memSorted_iff hc hs).mpr hmem] at hh
      exact Bool.noConfusion hh
    have hxs : (s.Delete ys).xs = s.xs := foldl_remove_of_not_mem hc ys hnone
    constructor
    · show (s.Delete ys).xs.length = s.xs.length
      rw [hxs]
    · show eqList s.cmp (s.Delete ys).xs s.xs = true
      rw [hxs]
      exact eqList_refl hc _

theorem delete_idempotent_witness :
    (((NewImmSetFunc (compare : Int → Int → Ordering) [1, 2, 3]).Delete [2]).Delete
          [2]).Equal ((NewImmSetFunc (compare : Int → Int → Ordering) [1, 2, 3]).Delete [2]) =
        true ∧
      ((∀ y ∈ ([99] : List Int),
          (NewImmSetFunc (compare : Int → Int → Ordering) [1, 2, 3]).Has y = false) →
        ((NewImmSetFunc (compare : Int → Int → Ordering) [1, 2, 3]).Delete [99]).Len =
            (NewImmSetFunc (compare : Int → Int → Ordering) [1, 2, 3]).Len ∧
          ((NewImmSetFunc (compare : Int → Int → Ordering) [1, 2, 3]).Delete [99]).Equal
              (NewImmSetFunc (compare : Int → Int → Ordering) [1, 2, 3]) = true) :=
  delete_idempotent (NewImmSetFunc compare [1, 2, 3]) 2 [99] lawful_compare
    (sorted_foldl_insert lawful_compare [1, 2, 3] List.Pairwise.nil)

theorem foldl_remove_nil {T : Type} (cmp : T → T → Ordering) (ys : List T) :
    ys.foldl (fun l x => removeSorted cmp x l) [] = [] := by
  induction ys with
  | nil => rfl
  | cons y ys ih => simpa [removeSorted] using ih

/-- Claim C6: Union satisfies identity, commutativity and
inclusion-exclusion: union with an empty set is `Equal` to the receiver,
union is commutative up to `Equal`, and the union's `Len` is the sum of the
two lengths minus the number of common elements. -/
theorem union_laws {T : Type} [DecidableEq T] (a b : ImmSet T)
    (hc : LawfulCmp a.cmp) (ha : a.WF) (hb : b.WF) (hcmp : b.cmp = a.cmp) :
    (a.Union (NewImmSetFunc a.cmp [])).Equal a = true ∧
      (a.Union b).Equal (b.Union a) = true ∧
      (a.Union b).Len = a.Len + b.Len - (a.xs.filter (fun x => b.Has x)).length := by
  have hb' : sortedLt a.cmp b.xs := hcmp ▸ hb
  refine ⟨?_, ?_, ?_⟩
  · show eqList a.cmp a.xs a.xs = true
    exact eqList_refl hc _
  · show eqList a.cmp (b.xs.foldl (fun l x => insertSorted a.cmp x l) a.xs)
      (a.xs.foldl (fun l x => insertSorted b.cmp x l) b.xs) = true
    rw [hcmp, eqList_iff hc]
    apply sorted_ext hc (sorted_foldl_insert hc b.xs ha) (sorted_foldl_insert hc a.xs hb')
    intro x
    rw [mem_foldl_insert hc, mem_foldl_insert hc]
    tauto
  · have hu_sorted : sortedLt a.cmp (a.Union b).xs := sorted_foldl_insert hc b.xs ha
    have hu_nodup : (a.Union b).xs.Nodup := nodup_of_sorted hc hu_sorted
    have ha_nodup : a.xs.Nodup := nodup_of_sorted hc ha
    have hb_nodup : b.xs.Nodup := nodup_of_sorted hc hb'
    have hf_nodup : (a.xs.filter (fun x => b.Has x)).Nodup :=
      List.Nodup.filter _ ha_nodup
    have hmem_u : ∀ x, x ∈ (a.Union b).xs ↔ x ∈ a.xs ∨ x ∈ b.xs := by
      intro x
      show x ∈ b.xs.foldl (fun l y => insertSorted a.cmp y l) a.xs ↔ _
      rw [mem_foldl_insert hc]
    have hmem_f : ∀ x, x ∈ a.xs.filter (fun y => b.Has y) ↔ x ∈ a.xs ∧ x ∈ b.xs := by
      intro x
      rw [List.mem_filter]
      constructor
      · rintro ⟨hxa, hxb⟩
        have hh : memSorted a.cmp x b.xs = true := by
          rw [← hcmp]
          exact hxb
        exact ⟨hxa, (memSorted_iff hc hb').mp hh⟩
      · rintro ⟨hxa, hxb⟩
        refine ⟨hxa, ?_⟩
        show memSorted b.cmp x b.xs = true
        rw [hcmp]
        exact (memSorted_iff hc hb').mpr hxb
    have h1 : (a.Union b).xs.toFinset = a.xs.toFinset ∪ b.xs.toFinset := by
      apply Finset.ext
      intro x
      rw [List.mem_toFinset, Finset.mem_union, List.mem_toFinset, List.mem_toFinset,
        hmem_u x]
    have h2 : (a.xs.filter (fun x => b.Has x)).toFinset =
        a.xs.toFinset ∩ b.xs.toFinset := by
      apply Finset.ext
      intro x
      rw [List.mem_toFinset, Finset.mem_inter, List.mem_toFinset, List.mem_toFinset,
        hmem_f x]
    have hcard := Finset.card_union_add_card_inter a.xs.toFinset b.xs.toFinset
    rw [← h1, ← h2, List.toFinset_card_of_nodup hu_nodup,
      List.toFinset_card_of_nodup hf_nodup, List.toFinset_card_of_nodup ha_nodup,
      List.toFinset_card_of_nodup hb_nodup] at hcard
    show (a.Union b).xs.length = a.xs.length + b.xs.length -
      (a.xs.filter (fun x => b.Has x)).length
    omega

theorem union_laws_witness :
    ((NewImmSetFunc (compare : Int → Int → Ordering) [1, 2, 3]).Union
          (NewImmSetFunc (compare : Int → Int → Ordering) [])).Equal
        (NewImmSetFunc (compare : Int → Int → Ordering) [1, 2, 3]) = true ∧
      ((NewImmSetFunc (compare : Int → Int → Ordering) [1, 2, 3]).Union
            (NewImmSetFunc (compare : Int → Int → Ordering) [3, 4, 5])).Equal
          ((NewImmSetFunc (compare : Int → Int → Ordering) [3, 4, 5]).Union
            (NewImmSetFunc (compare : Int → Int → Ordering) [1, 2, 3])) = true ∧
      ((NewImmSetFunc (compare : Int → Int → Ordering) [1, 2, 3]).Union
            (NewImmSetFunc (compare : Int → Int → Ordering) [3, 4, 5])).Len =
        (NewImmSetFunc (compare : Int → Int → Ordering) [1, 2, 3]).Len +
            (NewImmSetFunc (compare : Int → Int → Ordering) [3, 4, 5]).Len -
          ((NewImmSetFunc (compare : Int → Int → Ordering) [1, 2, 3]).xs.filter
              (fun x => (NewImmSetFunc (compare : Int → Int → Ordering) [3, 4, 5]).Has x)).length :=
  union_laws (NewImmSetFunc compare [1, 2, 3]) (NewImmSetFunc compare [3, 4, 5])
    lawful_compare (sorted_foldl_insert lawful_compare [1, 2, 3] List.Pairwise.nil)
    (sorted_foldl_insert lawful_compare [3, 4, 5] List.Pairwise.nil) rfl

/-- Claim C7: Difference laws: self-difference is empty, difference with the
empty set is `Equal` to the receiver, `A.Union(B).Difference(B)` is a subset
of `A`, and the result holds exactly the elements present in the receiver
and absent from the argument. -/
theorem difference_laws {T : Type} (a b : ImmSet T)
    (hc : LawfulCmp a.cmp) (ha : a.WF) (hb : b.WF) (hcmp : b.cmp = a.cmp) :
    (a.Difference a).Len = 0 ∧
      (a.Difference (NewImmSetFunc a.cmp [])).Equal a = true ∧
      (∀ x, x ∈ ((a.Union b).Difference b).AsSlice → x ∈ a.AsSlice) ∧
      (∀ x, x ∈ (a.Difference b).AsSlice ↔ x ∈ a.AsSlice ∧ b.Has x = false) := by
  have hb' : sortedLt a.cmp b.xs := hcmp ▸ hb
  refine ⟨?_, ?_, ?_, ?_⟩
  · show (a.xs.filter (fun x => !(memSorted a.cmp x a.xs))).length = 0
    rw [List.length_eq_zero, List.filter_eq_nil_iff]
    intro x hx
    rw [(memSorted_iff hc ha).mpr hx]
    simp
  · show eqList a.cmp (a.xs.filter (fun x => !(memSorted a.cmp x ([] : List T)))) a.xs = true
    have hall : ∀ x ∈ a.xs, (!(memSorted a.cmp x ([] : List T))) = true := fun x _ => rfl
    rw [List.filter_eq_self.mpr hall]
    exact eqList_refl hc _
  · intro x hx
    have hx' : x ∈ ((a.Union b).xs.filter
        (fun y => !(memSorted a.cmp y b.xs))) := hx
    rcases List.mem_filter.mp hx' with ⟨hxu, hxp⟩
    have hxu' : x ∈ a.xs ∨ x ∈ b.xs := by
      rw [← mem_foldl_insert hc x b.xs a.xs]
      exact hxu
    rcases hxu' with hxa | hxb
    · exact hxa
    · rw [Bool.not_eq_true'] at hxp
      rw [(memSorted_iff hc hb').mpr hxb] at hxp
      exact Bool.noConfusion hxp
  · intro x
    show x ∈ a.xs.filter (fun y => !(memSorted a.cmp y b.xs)) ↔
      x ∈ a.xs ∧ b.Has x = false
    have hhas : b.Has x = memSorted a.cmp x b.xs := by
      show memSorted b.cmp x b.xs = memSorted a.cmp x b.xs
      rw [hcmp]
    simp only [List.mem_filter, Bool.not_eq_true', hhas]

theorem difference_laws_witness :
    ((NewImmSetFunc (compare : Int → Int → Ordering) [1, 2, 3]).Difference
          (NewImmSetFunc (compare : Int → Int → Ordering) [1, 2, 3])).Len = 0 ∧
      ((NewImmSetFunc (compare : Int → Int → Ordering) [1, 2, 3]).Difference
            (NewImmSetFunc (compare : Int → Int → Ordering) [])).Equal
          (NewImmSetFunc (compare : Int → Int → Ordering) [1, 2, 3]) = true ∧
      (∀ x, x ∈ (((NewImmSetFunc (compare : Int → Int → Ordering) [1, 2, 3]).Union
              (NewImmSetFunc (compare : Int → Int → Ordering) [3, 4, 5])).Difference
            (NewImmSetFunc (compare : Int → Int → Ordering) [3, 4, 5])).AsSlice →
        x ∈ (NewImmSetFunc (compare : Int → Int → Ordering) [1, 2, 3]).AsSlice) ∧
      (∀ x, x ∈ ((NewImmSetFunc (compare : Int → Int → Ordering) [1, 2, 3]).Difference
            (NewImmSetFunc (compare : Int → Int → Ordering) [3, 4, 5])).AsSlice ↔
        x ∈ (NewImmSetFunc (compare : Int → Int → Ordering) [1, 2, 3]).AsSlice ∧
          (NewImmSetFunc (compare : Int → Int → Ordering) [3, 4, 5]).Has x = false) :=
  difference_laws (NewImmSetFunc compare [1, 2, 3]) (NewImmSetFunc compare [3, 4, 5])
    lawful_compare (sorted_foldl_insert lawful_compare [1, 2, 3] List.Pairwise.nil)
    (sorted_foldl_insert lawful_compare [3, 4, 5] List.Pairwise.nil) rfl

/-- Claim C8: Equal is purely content-based: two well-formed sets over one
correct comparator are `Equal` exactly when they hold the same elements,
regardless of how they were built, and every set with a correct comparator
is `Equal` to itself (including the empty set). -/
theorem equal_content_based {T : Type} (a b : ImmSet T)
    (hc : LawfulCmp a.cmp) (ha : a.WF) (hb : b.WF) (hcmp : b.cmp = a.cmp) :
    (a.Equal b = true ↔ ∀ x, x ∈ a.AsSlice ↔ x ∈ b.AsSlice) ∧
      (∀ s : ImmSet T, LawfulCmp s.cmp → s.Equal s = true) := by
  have hb' : sortedLt a.cmp b.xs := hcmp ▸ hb
  constructor
  · constructor
    · intro heq x
      have hxs : a.xs = b.xs := (eqList_iff hc a.xs b.xs).mp heq
      rw [show a.AsSlice = a.xs from rfl, show b.AsSlice = b.xs from rfl, hxs]
    · intro hmem
      show eqList a.cmp a.xs b.xs = true
      rw [eqList_iff hc]
      exact sorted_ext hc ha hb' hmem
  · intro s hcs
    show eqList s.cmp s.xs s.xs = true
    exact eqList_refl hcs _

theorem equal_content_based_witness :
    ((NewImmSetFunc (compare : Int → Int → Ordering) [1, 2]).Equal
          (NewImmSetFunc (compare : Int → Int → Ordering) [2, 1]) = true ↔
        ∀ x, x ∈ (NewImmSetFunc (compare : Int → Int → Ordering) [1, 2]).AsSlice ↔
          x ∈ (NewImmSetFunc (compare : Int → Int → Ordering) [2, 1]).AsSlice) ∧
      (∀ s : ImmSet Int, LawfulCmp s.cmp → s.Equal s = true) :=
  equal_content_based (NewImmSetFunc compare [1, 2]) (NewImmSetFunc compare [2, 1])
    lawful_compare (sorted_foldl_insert lawful_compare [1, 2] List.Pairwise.nil)
    (sorted_foldl_insert lawful_compare [2, 1] List.Pairwise.nil) rfl

/-- Claim C9: the variadic constructors collapse duplicates: the built set
holds exactly the distinct elements of the input, its `Len` is the number of
distinct input elements, and any two inputs with the same elements build
`Equal` sets; the intrinsic-order constructor `NewImmSet` behaves the
same way. -/
theorem newset_collapses_duplicates {T : Type} [LinearOrder T]
    (cmp : T → T → Ordering) (hc : LawfulCmp cmp) (items : List T) :
    (∀ x, x ∈ (NewImmSetFunc cmp items).AsSlice ↔ x ∈ items) ∧
      (NewImmSetFunc cmp items).Len = items.toFinset.card ∧
      (∀ items2 : List T, (∀ x, x ∈ items2 ↔ x ∈ items) →
        (NewImmSetFunc cmp items2).Equal (NewImmSetFunc cmp items) = true) ∧
      (∀ x, x ∈ (NewImmSet items).AsSlice ↔ x ∈ items) ∧
      (NewImmSet items).Len = items.toFinset.card := by
  have key : ∀ (c : T → T → Ordering), LawfulCmp c →
      (∀ x, x ∈ (NewImmSetFunc c items).AsSlice ↔ x ∈ items) ∧
        (NewImmSetFunc c items).Len = items.toFinset.card := by
    intro c hcc
    have hmem : ∀ x, x ∈ (NewImmSetFunc c items).xs ↔ x ∈ items := by
      intro x
      show x ∈ items.foldl (fun l y => insertSorted c y l) [] ↔ x ∈ items
      rw [mem_foldl_insert hcc]
      simp
    have hnd : (NewImmSetFunc c items).xs.Nodup :=
      nodup_of_sorted hcc (sorted_foldl_insert hcc items List.Pairwise.nil)
    have hts : (NewImmSetFunc c items).xs.toFinset = items.toFinset := by
      apply Finset.ext
      intro x
      rw [List.mem_toFinset, List.mem_toFinset, hmem x]
    refine ⟨hmem, ?_⟩
    show (NewImmSetFunc c items).xs.length = items.toFinset.card
    rw [← List.toFinset_card_of_nodup hnd, hts]
  rcases key cmp hc with ⟨hmem, hlen⟩
  rcases key compare lawful_compare with ⟨hmem2, hlen2⟩
  refine ⟨hmem, hlen, ?_, hmem2, hlen2⟩
  intro items2 hsame
  show eqList cmp (NewImmSetFunc cmp items2).xs (NewImmSetFunc cmp items).xs = true
  rw [eqList_iff hc]
  apply sorted_ext hc (sorted_foldl_insert hc items2 List.Pairwise.nil)
    (sorted_foldl_insert hc items List.Pairwise.nil)
  intro x
  show x ∈ items2.foldl (fun l y => insertSorted cmp y l) [] ↔
    x ∈ items.foldl (fun l y => insertSorted cmp y l) []
  rw [mem_foldl_insert hc, mem_foldl_insert hc]
  simp [hsame x]

theorem newset_collapses_duplicates_witness :
    (∀ x, x ∈ (NewImmSetFunc (compare : Int → Int → Ordering)
          [1, 2, 2, 3, 1]).AsSlice ↔ x ∈ ([1, 2, 2, 3, 1] : List Int)) ∧
      (NewImmSetFunc (compare : Int → Int → Ordering) [1, 2, 2, 3, 1]).Len =
        ([1, 2, 2, 3, 1] : List Int).toFinset.card ∧
      (∀ items2 : List Int, (∀ x, x ∈ items2 ↔ x ∈ ([1, 2, 2, 3, 1] : List Int)) →
        (NewImmSetFunc (compare : Int → Int → Ordering) items2).Equal
          (NewImmSetFunc (compare : Int → Int → Ordering) [1, 2, 2, 3, 1]) = true) ∧
      (∀ x, x ∈ (NewImmSet ([1, 2, 2, 3, 1] : List Int)).AsSlice ↔
        x ∈ ([1, 2, 2, 3, 1] : List Int)) ∧
      (NewImmSet ([1, 2, 2, 3, 1] : List Int)).Len =
        ([1, 2, 2, 3, 1] : List Int).toFinset.card :=
  newset_collapses_duplicates compare lawful_compare [1, 2, 2, 3, 1]

/-- Claim C10: every operation is total under a correct comparator: `Has` on
an absent element returns `false`, deleting only absent elements (including
any deletion on the empty set) yields a valid set `Equal` to the receiver
with unchanged `Len`, and no operation has an error outcome. -/
theorem ops_total {T : Type} (s : ImmSet T) (x : T) (ys : List T)
    (hc : LawfulCmp s.cmp) (hs : s.WF) :
    (x ∉ s.AsSlice → s.Has x = false) ∧
      ((∀ y ∈ ys, y ∉ s.AsSlice) →
        (s.Delete ys).Equal s = true ∧ (s.Delete ys).Len = s.Len) ∧
      ((NewImmSetFunc s.cmp []).Delete ys).Equal (NewImmSetFunc s.cmp []) = true := by
  refine ⟨?_, ?_, ?_⟩
  · intro hnot
    show memSorted s.cmp x s.xs = false
    cases hms : memSorted s.cmp x s.xs with
    | false => rfl
    | true => exact absurd ((memSorted_iff hc hs).mp hms) hnot
  · intro hnone
    have hxs : (s.Delete ys).xs = s.xs := foldl_remove_of_not_mem hc ys hnone
    constructor
    · show eqList s.cmp (s.Delete ys).xs s.xs = true
      rw [hxs]
      exact eqList_refl hc _
    · show (s.Delete ys).xs.length = s.xs.length
      rw [hxs]
  · show eqList s.cmp (ys.foldl (fun l y => removeSorted s.cmp y l) []) ([] : List T) = true
    rw [foldl_remove_nil]
    rfl

theorem ops_total_witness :
    ((4 : Int) ∉ (NewImmSetFunc (compare : Int → Int → Ordering) [1, 2, 3]).AsSlice →
        (NewImmSetFunc (compare : Int → Int → Ordering) [1, 2, 3]).Has 4 = false) ∧
      ((∀ y ∈ ([9] : List Int),
          y ∉ (NewImmSetFunc (compare : Int → Int → Ordering) [1, 2, 3]).AsSlice) →
        ((NewImmSetFunc (compare : Int → Int → Ordering) [1, 2, 3]).Delete [9]).Equal
            (NewImmSetFunc (compare : Int → Int → Ordering) [1, 2, 3]) = true ∧
          ((NewImmSetFunc (compare : Int → Int → Ordering) [1, 2, 3]).Delete [9]).Len =
            (NewImmSetFunc (compare : Int → Int → Ordering) [1, 2, 3]).Len) ∧
      ((NewImmSetFunc (NewImmSetFunc (compare : Int → Int → Ordering) [1, 2, 3]).cmp
              []).Delete [9]).Equal
          (NewImmSetFunc (NewImmSetFunc (compare : Int → Int → Ordering) [1, 2, 3]).cmp []) =
        true :=
  ops_total (NewImmSetFunc compare [1, 2, 3]) 4 [9] lawful_compare
    (sorted_foldl_insert lawful_compare [1, 2, 3] List.Pairwise.nil)

end ImmSetSpec
